import Mathlib

/-!
Verification of the cavempv media-sequencing controller (src/src/main.rs,
src/src/settings.rs) against its natural-language specification.

The embedding models:
- the serial line codec (`LineCodec::decode` / `LineCodec::encode`),
- the playlist cursor (a `LinkedList` cursor, modelled as a natural number
  index where the value `len` stands for the cursor's "ghost" non-element),
- the fadeout selector and the per-command transition of the consumer task.

Bytes are natural numbers; the Rust `usize` subtraction `line.len() - 2`
is modelled with wrapping (release-profile) arithmetic modulo 2^64.
Playback times and `before` thresholds (`f32` in the source) are modelled
as rationals: every finite `f32` is an exact rational and `f32` comparison
on finite values agrees with rational comparison; `F32MAX` is the exact
value of `f32::MAX`.
-/

namespace Cavempv

/-- Inbound command from the panel (enum `Command` in main.rs). -/
inductive Command where
  | Next
  | Prev
  | Sleep
deriving DecidableEq, Repr

/-- Outbound panel signal (enum `ButtonState` in main.rs). -/
inductive ButtonState where
  | StartOnly
  | Both
deriving DecidableEq, Repr

/-- `settings::Fadeout`: optional `before` threshold (seconds) and a clip path. -/
structure Fadeout where
  before : Option ℚ
  video : String
deriving DecidableEq, Repr

/-- `settings::Fragment`: optional intro clip, required static clip,
optional fadeout list. -/
structure Fragment where
  intro : Option String
  static_ : String
  fadeout : Option (List Fadeout)
deriving DecidableEq, Repr

/-- 2^64, the modulus of Rust `usize` arithmetic. -/
def USIZE : ℕ := 18446744073709551616

/-- The inner `match command` of `LineCodec::decode`:
`b'n' => Next, b'p' => Prev, b's' => Sleep, _ => None`. -/
def tagByte (b : ℕ) : Option Command :=
  if b = 110 then some Command.Next
  else if b = 112 then some Command.Prev
  else if b = 115 then some Command.Sleep
  else none

/-- `LineCodec::decode`: scan for the first newline; if found, split off the
line through the newline, look up the byte at `line.len() - 2` (wrapping
`usize` subtraction) and map it through the command match; with no newline
the buffer is left untouched and no command is produced.  Returns the
produced command (if any) together with the remaining buffer.  The source's
two `Ok(None)` exits (failed byte lookup, and unrecognized tag byte) are the
`none` results of the `Option.bind`. -/
def decode (src : List ℕ) : Option Command × List ℕ :=
  match src.findIdx? (fun b => b == 10) with
  | some n =>
    let line := src.take (n + 1)
    ((line.get? ((line.length + (USIZE - 2)) % USIZE)).bind tagByte, src.drop (n + 1))
  | none => (none, src)

/-- `LineCodec::encode`: one wire byte per signal (`Both` and `StartOnly`
both encode to `b'b'` = 98) followed by a newline byte, appended to `dst`. -/
def encode (item : ButtonState) (dst : List ℕ) : List ℕ :=
  (dst ++ [match item with
           | ButtonState.Both => 98
           | ButtonState.StartOnly => 98]) ++ [10]

/-- The exact value of `f32::MAX` as a rational: (2 - 2^-23) * 2^127
= 2^128 - 2^104. -/
def F32MAX : ℚ := 340282346638528859811704183484516925440

/-- The fadeout selection of the transition consumer (main.rs lines 219-227):
if `loops == -1`, the first entry with no `before`; otherwise the first entry
with `playback_time <= entry.before.unwrap_or(f32::MAX)`. -/
def selectFadeout (loops : ℤ) (playback_time : ℚ) (fadeouts : List Fadeout) :
    Option Fadeout :=
  if loops = -1 then
    fadeouts.find? (fun video => video.before.isNone)
  else
    fadeouts.find? (fun timing => decide (playback_time ≤ timing.before.getD F32MAX))

/-!
The playlist cursor.  A `LinkedList` cursor over a list of length `len` is
either at an element index `0 ≤ i < len` or at the "ghost" non-element,
modelled here as the value `len` itself.  `cursor_front` on a non-empty list
is index 0; on an empty list it is the ghost, which the value 0 = len also
denotes.  `move_next` steps to the next element, moving from the last
element to the ghost and from the ghost to the front element (staying on
the ghost only when the list is empty).  `index()` is `None` exactly on
the ghost.
-/

/-- `CursorMut::move_next` on a list of length `len`. -/
def moveNext (len c : ℕ) : ℕ :=
  if c < len then c + 1 else 0

/-- The cursor move performed for one command (main.rs lines 239-255):
`Next` does `move_next()` and, when `index()` turns up `None` (the ghost),
a second `move_next()`; `Prev` logs "Actually not moving at all" and leaves
the cursor alone; `Sleep` resets to `playlist.cursor_front()`. -/
def applyCmd (len : ℕ) (cmd : Command) (c : ℕ) : ℕ :=
  match cmd with
  | Command.Next =>
    let c1 := moveNext len c
    if c1 = len then moveNext len c1 else c1
  | Command.Prev => c
  | Command.Sleep => 0

/-- A call issued to the playback engine by the consumer task. -/
inductive EngineCall where
  | replace (path : String) (infLoop : Bool)
  | queue (path : String) (infLoop : Bool)
  | clearQueue
deriving DecidableEq, Repr

/-- Whether an engine call is an immediate `replace`. -/
def isReplace : EngineCall → Bool
  | EngineCall.replace _ _ => true
  | _ => false

/-- The fadeout phase of one transition (main.rs lines 204-235): if the
current fragment has a fadeout list, run the selector; on a hit, replace
with the outro (non-looping) and clear the engine queue, setting the
`replaced` flag.  Returns the `replaced` flag and the calls issued. -/
def fadeStep (frag : Fragment) (loops : ℤ) (playback_time : ℚ) :
    Bool × List EngineCall :=
  match frag.fadeout with
  | none => (false, [])
  | some fadeouts =>
    match selectFadeout loops playback_time fadeouts with
    | some fadeout =>
      (true, [EngineCall.replace fadeout.video false, EngineCall.clearQueue])
    | none => (false, [])

/-- The intro phase (main.rs lines 257-267): if the new fragment has an
intro, queue it when a replace already happened this transition, else
replace with it (setting the flag) and clear the queue. -/
def introStep (frag' : Fragment) (replaced : Bool) : Bool × List EngineCall :=
  match frag'.intro with
  | some intro =>
    if replaced then (replaced, [EngineCall.queue intro false])
    else (true, [EngineCall.replace intro false, EngineCall.clearQueue])
  | none => (replaced, [])

/-- The static-clip phase (main.rs lines 268-276): queue the new fragment's
looping static clip when a replace already happened, else replace with it
and clear the queue. -/
def staticStep (frag' : Fragment) (replaced : Bool) : List EngineCall :=
  if replaced then [EngineCall.queue frag'.static_ true]
  else [EngineCall.replace frag'.static_ true, EngineCall.clearQueue]

/-- One transition of the consumer task (the body of the `while let` loop,
main.rs lines 200-277) on a dequeued command: evaluate the current
fragment's fadeout against the telemetry, move the cursor, then load the
new fragment's intro (if any) and its static clip, threading the `replaced`
flag through the three phases.  `none` models a panic of
`cursor.current().unwrap()` (ghost cursor).  Returns the new cursor and
the ordered list of engine calls issued. -/
def transition (playlist : List Fragment) (c : ℕ) (cmd : Command)
    (loops : ℤ) (playback_time : ℚ) : Option (ℕ × List EngineCall) :=
  match playlist.get? c with
  | none => none
  | some frag =>
    match playlist.get? (applyCmd playlist.length cmd c) with
    | none => none
    | some frag' =>
      some (applyCmd playlist.length cmd c,
        (fadeStep frag loops playback_time).2
          ++ (introStep frag' (fadeStep frag loops playback_time).1).2
          ++ staticStep frag'
              (introStep frag' (fadeStep frag loops playback_time).1).1)

/-- Run the consumer over a list of commands, each paired with the telemetry
(remaining loops, playback time) the engine reports when that command is
processed.  `none` models a panic during some transition. -/
def runCmds (playlist : List Fragment) : ℕ → List (Command × ℤ × ℚ) → Option ℕ
  | c, [] => some c
  | c, (cmd, loops, pt) :: rest =>
    match transition playlist c cmd loops pt with
    | some (c', _) => runCmds playlist c' rest
    | none => none

/-! ### Helper lemmas -/

/-- Sanity check: `F32MAX` is `(2 - 2^-23) * 2^127`. -/
theorem F32MAX_eq : F32MAX = 2 ^ 128 - 2 ^ 104 := by norm_num [F32MAX]

/-- First-match characterization of `List.find?`: it returns `some x` exactly
when the list splits as `l1 ++ x :: l2` with `p x` true and `p` false on all
of `l1`. -/
theorem find?_eq_some_split {α : Type} (p : α → Bool) (l : List α) (x : α) :
    l.find? p = some x ↔
      ∃ l1 l2, l = l1 ++ x :: l2 ∧ p x = true ∧ ∀ y ∈ l1, p y = false := by
  induction l with
  | nil => simp
  | cons a as ih =>
    rw [List.find?_cons]
    cases h : p a with
    | true =>
      simp only [Option.some.injEq]
      constructor
      · rintro rfl
        exact ⟨[], as, rfl, h, by simp⟩
      · rintro ⟨l1, l2, heq, hx, hl1⟩
        cases l1 with
        | nil =>
          have hax : a = x ∧ as = l2 := by simpa using heq
          exact hax.1
        | cons b l1' =>
          have hb : b = a := by simpa using congrArg (fun t => t.head?) heq.symm
          have := hl1 b (by simp)
          rw [hb, h] at this
          exact absurd this (by simp)
    | false =>
      rw [ih]
      constructor
      · rintro ⟨l1, l2, heq, hx, hl1⟩
        refine ⟨a :: l1, l2, by simp [heq], hx, ?_⟩
        intro y hy
        rcases List.mem_cons.mp hy with rfl | hy
        · exact h
        · exact hl1 y hy
      · rintro ⟨l1, l2, heq, hx, hl1⟩
        cases l1 with
        | nil =>
          have hax : a = x := by simpa using congrArg (fun t => t.head?) heq
          rw [hax] at h
          rw [hx] at h
          exact absurd h (by simp)
        | cons b l1' =>
          have hb : b = a := by simpa using congrArg (fun t => t.head?) heq.symm
          have htl : as = l1' ++ x :: l2 := by
            simpa using congrArg (fun t => t.tail) heq
          exact ⟨l1', l2, htl, hx, fun y hy => hl1 y (by simp [hy])⟩

/-! ### The line codec: claims C7, C8, C10 -/

/-- Unfolding `decode` when the buffer holds a newline at index `n`. -/
theorem decode_found (src : List ℕ) (n : ℕ)
    (h : src.findIdx? (fun b => b == 10) = some n) :
    decode src =
      (((src.take (n + 1)).get?
          (((src.take (n + 1)).length + (USIZE - 2)) % USIZE)).bind tagByte,
        src.drop (n + 1)) := by
  unfold decode
  rw [h]

/-- Unfolding `decode` when the buffer holds no newline. -/
theorem decode_no_newline (src : List ℕ)
    (h : src.findIdx? (fun b => b == 10) = none) :
    decode src = (none, src) := by
  unfold decode
  rw [h]

/-- C8: `LineCodec::encode` appends exactly one output byte followed by a
newline byte for every `ButtonState`, and the encodings of `Both` and
`StartOnly` are identical (the wire byte is `b'b'` = 98 in both cases). -/
theorem encode_one_byte_then_newline (item : ButtonState) (dst : List ℕ) :
    encode item dst = dst ++ [98, 10] ∧
      encode ButtonState.Both dst = encode ButtonState.StartOnly dst := by
  cases item <;> simp [encode]

/-- C10: on a buffer whose first byte is already the newline (an empty line),
`decode` consumes that one-byte line and returns no command: the wrapping
`usize` computation `line.len() - 2` yields `2^64 - 1`, the lookup at that
index fails, and no out-of-bounds read occurs. -/
theorem decode_empty_line (rest : List ℕ) : decode (10 :: rest) = (none, rest) := by
  have hfind : (10 :: rest).findIdx? (fun b => b == 10) = some 0 := by
    rw [List.findIdx?_cons]
    simp
  rw [decode_found _ 0 hfind]
  have hline : List.take (0 + 1) (10 :: rest) = [10] := by simp
  rw [hline]
  have hidx : (([10] : List ℕ).length + (USIZE - 2)) % USIZE =
      18446744073709551615 := by
    norm_num [USIZE]
  rw [hidx]
  have hget : ([10] : List ℕ).get? 18446744073709551615 = none := by
    rw [List.get?_eq_getElem?]
    exact List.getElem?_eq_none (by norm_num)
  rw [hget]
  simp

/-- C7: on a buffer that is a newline-free prefix, then a content byte `c`,
then the first newline, then anything, `decode` consumes exactly through the
newline (leaving the tail), and interprets `c` — the byte immediately
preceding the newline — as the command tag: `'n'` (110) gives `Next`, `'p'`
(112) gives `Prev`, `'s'` (115) gives `Sleep`, and any other byte yields no
command without an error. -/
theorem decode_line (pre : List ℕ) (c : ℕ) (rest : List ℕ)
    (hpre : 10 ∉ pre) (hc : c ≠ 10) (hlen : pre.length < USIZE) :
    decode (pre ++ c :: 10 :: rest) =
      (if c = 110 then some Command.Next
       else if c = 112 then some Command.Prev
       else if c = 115 then some Command.Sleep
       else none, rest) := by
  have hfpre : pre.findIdx? (fun b => b == 10) = none := by
    rw [List.findIdx?_eq_none_iff]
    intro x hx
    simp only [beq_eq_false_iff_ne, ne_eq]
    rintro rfl
    exact hpre hx
  have hftail : (c :: 10 :: rest).findIdx? (fun b => b == 10) = some 1 := by
    rw [List.findIdx?_cons]
    simp only [beq_iff_eq, hc, if_false]
    rw [List.findIdx?_cons]
    simp
  have hfind : (pre ++ c :: 10 :: rest).findIdx? (fun b => b == 10) =
      some (1 + pre.length) := by
    rw [List.findIdx?_append, hfpre, hftail]
    simp
  rw [decode_found _ (1 + pre.length) hfind]
  have htake : List.take (1 + pre.length + 1) (pre ++ c :: 10 :: rest) =
      pre ++ [c, 10] := by
    rw [List.take_append_eq_append_take]
    have h1 : pre.take (1 + pre.length + 1) = pre := List.take_of_length_le (by omega)
    have h2 : 1 + pre.length + 1 - pre.length = 2 := by omega
    rw [h1, h2]
    simp
  rw [htake]
  have hlinelen : (pre ++ [c, 10]).length = pre.length + 2 := by simp
  have hidx : ((pre ++ [c, 10]).length + (USIZE - 2)) % USIZE = pre.length := by
    rw [hlinelen]
    have h2 : (2:ℕ) ≤ USIZE := by norm_num [USIZE]
    have : pre.length + 2 + (USIZE - 2) = pre.length + USIZE := by omega
    rw [this, Nat.add_mod_right]
    exact Nat.mod_eq_of_lt hlen
  rw [hidx]
  have hget : (pre ++ [c, 10]).get? pre.length = some c := by
    rw [List.get?_eq_getElem?, List.getElem?_append_right (le_refl _)]
    simp
  rw [hget]
  have hdrop : List.drop (1 + pre.length + 1) (pre ++ c :: 10 :: rest) = rest := by
    rw [List.drop_append_eq_append_drop]
    have h1 : pre.drop (1 + pre.length + 1) = [] := List.drop_eq_nil_of_le (by omega)
    have h2 : 1 + pre.length + 1 - pre.length = 2 := by omega
    rw [h1, h2]
    simp
  rw [hdrop]
  simp [tagByte]

/-- Witness for C7: `decode` on the concrete buffer `"xn\ns\n"` consumes the
first line and produces `Next`, leaving `"s\n"` buffered. -/
theorem decode_line_witness :
    decode [120, 110, 10, 115, 10] = (some Command.Next, [115, 10]) := by
  have h := decode_line [120] 110 [115, 10] (by decide) (by decide)
    (by norm_num [USIZE])
  simpa using h

/-! ### The fadeout selector: claims C1, C2 -/

/-- The matching predicate the spec describes for the finite-loops case:
an entry matches when its `before` threshold is greater than or equal to
the playback time, and an absent `before` is an unbounded threshold that
always matches.  Written from the spec's words, to be compared with the
selector embedded from the source. -/
def specMatches (pt : ℚ) (f : Fadeout) : Bool :=
  match f.before with
  | some b => decide (pt ≤ b)
  | none => true

/-- `List.find?` only depends on the values of the predicate on the list. -/
theorem find?_congr_on {α : Type} (p q : α → Bool) (l : List α)
    (h : ∀ x ∈ l, p x = q x) : l.find? p = l.find? q := by
  induction l with
  | nil => rfl
  | cons a as ih =>
    rw [List.find?_cons, List.find?_cons, h a (by simp)]
    cases q a
    · exact ih fun x hx => h x (by simp [hx])
    · rfl

/-- C1: with `remaining_loops ≠ -1` and a playback time in the range of
finite `f32` values, the selector returns exactly the first entry, in
declared order, whose `before` threshold is at least `playback_time`
(an absent `before` always matches), and `none` when no entry matches. -/
theorem selectFadeout_finite (loops : ℤ) (pt : ℚ) (l : List Fadeout)
    (hl : loops ≠ -1) (hpt : pt ≤ F32MAX) :
    selectFadeout loops pt l = l.find? (specMatches pt) ∧
    (∀ f, selectFadeout loops pt l = some f ↔
      ∃ l1 l2, l = l1 ++ f :: l2 ∧ specMatches pt f = true ∧
        ∀ g ∈ l1, specMatches pt g = false) ∧
    (selectFadeout loops pt l = none ↔ ∀ f ∈ l, specMatches pt f = false) := by
  have hfind : selectFadeout loops pt l = l.find? (specMatches pt) := by
    unfold selectFadeout
    rw [if_neg hl]
    apply find?_congr_on
    intro f _
    unfold specMatches
    cases hb : f.before with
    | some b => simp [hb]
    | none => simp [hb, Option.getD, hpt]
  refine ⟨hfind, fun f => ?_, ?_⟩
  · rw [hfind]
    exact find?_eq_some_split (specMatches pt) l f
  · rw [hfind, List.find?_eq_none]
    constructor
    · intro h f hf
      have := h f hf
      simpa using this
    · intro h f hf
      simp [h f hf]

/-- Witness for C1: with `remaining_loops = 2`, `playback_time = 10`, and the
fadeout list `[{before: 5, video: A}, {before: 15, video: B}]`, the selector
picks B, the first entry whose threshold is at least the playback time. -/
theorem selectFadeout_finite_witness :
    selectFadeout 2 10 [⟨some 5, "A"⟩, ⟨some 15, "B"⟩] =
      some ⟨some 15, "B"⟩ := by
  have h := (selectFadeout_finite 2 10 [⟨some 5, "A"⟩, ⟨some 15, "B"⟩]
    (by decide) (by decide)).1
  rw [h]
  decide

/-- C2: with `remaining_loops = -1` the selector returns the first entry in
declared order whose `before` is absent — independently of the playback
time — and `none` when every entry carries a threshold. -/
theorem selectFadeout_infinite (pt pt' : ℚ) (l : List Fadeout) :
    selectFadeout (-1) pt l = selectFadeout (-1) pt' l ∧
    (∀ f, selectFadeout (-1) pt l = some f ↔
      ∃ l1 l2, l = l1 ++ f :: l2 ∧ f.before = none ∧
        ∀ g ∈ l1, g.before ≠ none) ∧
    (selectFadeout (-1) pt l = none ↔ ∀ f ∈ l, f.before ≠ none) := by
  have hsel : ∀ q : ℚ, selectFadeout (-1) q l =
      l.find? (fun video => video.before.isNone) := by
    intro q
    unfold selectFadeout
    rw [if_pos rfl]
  refine ⟨(hsel pt).trans (hsel pt').symm, fun f => ?_, ?_⟩
  · rw [hsel pt, find?_eq_some_split]
    constructor
    · rintro ⟨l1, l2, heq, hx, hl1⟩
      refine ⟨l1, l2, heq, by simpa using hx, fun g hg => ?_⟩
      have := hl1 g hg
      simpa [Option.isSome_iff_ne_none] using this
    · rintro ⟨l1, l2, heq, hx, hl1⟩
      refine ⟨l1, l2, heq, by simpa using hx, fun g hg => ?_⟩
      have := hl1 g hg
      simpa [Option.isSome_iff_ne_none] using this
  · rw [hsel pt, List.find?_eq_none]
    constructor
    · intro h f hf
      have := h f hf
      simpa using this
    · intro h f hf
      simp [Option.isNone_iff_eq_none, h f hf]

/-! ### The playlist cursor: claims C3, C4 -/

/-- Counterexample for C3: at cursor index 1 in a 2-fragment playlist, the
`Prev` arm does not move to index 0 as the claim requires. -/
theorem prev_counterexample :
    applyCmd 2 Command.Prev 1 = 1 ∧ applyCmd 2 Command.Prev 1 ≠ 1 - 1 := by
  constructor
  · rfl
  · decide

/-- C3 (amended): the `Prev` arm of this build is a no-op — it logs
"Actually not moving at all" and leaves the cursor at its current index for
every playlist length and every position (in particular it stays at 0 when
at 0, and never wraps). -/
theorem prev_is_noop (len i : ℕ) : applyCmd len Command.Prev i = i := rfl

/-- C4: the `Next` arm performs `advance()`: on a non-empty playlist of
length `len`, a valid cursor at `i` moves to `i + 1` when that is still a
valid index, and wraps to index 0 from the last index (never ending on the
ghost non-element). -/
theorem next_advances (len i : ℕ) (hlen : 0 < len) (hi : i < len) :
    applyCmd len Command.Next i = if i + 1 = len then 0 else i + 1 := by
  simp only [applyCmd, moveNext]
  split_ifs <;> omega

/-- Witness for C4: on a 3-fragment playlist, `Next` from the last index
wraps to 0, and `Next` from index 0 advances to 1. -/
theorem next_advances_witness :
    applyCmd 3 Command.Next 2 = 0 ∧ applyCmd 3 Command.Next 0 = 1 := by
  constructor
  · have h := next_advances 3 2 (by decide) (by decide)
    simpa using h
  · have h := next_advances 3 0 (by decide) (by decide)
    simpa using h

/-! ### The transition trace: claim C5 -/

/-- The complete engine-call trace of a transition contains exactly one
`replace`: the three phases thread the `replaced` flag, so the one
immediate replacement is either the outro, the intro, or the static clip. -/
theorem trace_one_replace (frag frag' : Fragment) (loops : ℤ) (pt : ℚ) :
    ((fadeStep frag loops pt).2
        ++ (introStep frag' (fadeStep frag loops pt).1).2
        ++ staticStep frag' (introStep frag' (fadeStep frag loops pt).1).1).countP
      isReplace = 1 := by
  rcases hfo : frag.fadeout with _ | fl
  · rcases hi : frag'.intro with _ | intro <;>
      simp [fadeStep, introStep, staticStep, hfo, hi,
        List.countP_append, List.countP_cons, isReplace]
  · rcases hsel : selectFadeout loops pt fl with _ | f <;>
      rcases hi : frag'.intro with _ | intro <;>
        simp [fadeStep, introStep, staticStep, hfo, hsel, hi,
          List.countP_append, List.countP_cons, isReplace]

/-- C5: every transition that completes issues at most one immediate
`replace` call to the engine — each later clip load of the same transition
is a `queue` call. -/
theorem transition_at_most_one_replace (playlist : List Fragment) (c : ℕ)
    (cmd : Command) (loops : ℤ) (pt : ℚ) (c' : ℕ) (tr : List EngineCall)
    (h : transition playlist c cmd loops pt = some (c', tr)) :
    tr.countP isReplace ≤ 1 := by
  unfold transition at h
  split at h
  · exact Option.noConfusion h
  next frag hfrag =>
    split at h
    · exact Option.noConfusion h
    next frag' hfrag' =>
      injection h with h2
      obtain ⟨rfl, rfl⟩ := Prod.mk.injEq .. ▸ h2
      exact le_of_eq (trace_one_replace frag frag' loops pt)

/-- Witness for C5: a concrete transition (2-fragment playlist, `Next` from
index 0 onto a fragment with an intro) whose trace is one replace followed
by queues. -/
theorem transition_at_most_one_replace_witness :
    (([EngineCall.replace "i1" false, EngineCall.clearQueue,
       EngineCall.queue "s1" true] : List EngineCall).countP isReplace ≤ 1) := by
  exact transition_at_most_one_replace
    [⟨none, "s0", none⟩, ⟨some "i1", "s1", none⟩] 0 Command.Next 0 0 1
    [EngineCall.replace "i1" false, EngineCall.clearQueue,
     EngineCall.queue "s1" true] (by decide)

/-! ### The cursor validity invariant: claim C6 -/

/-- Every command move sends a valid cursor index to a valid cursor index. -/
theorem applyCmd_valid (len : ℕ) (cmd : Command) (i : ℕ)
    (h0 : 0 < len) (hi : i < len) : applyCmd len cmd i < len := by
  cases cmd with
  | Next =>
    simp only [applyCmd, moveNext]
    split_ifs <;> omega
  | Prev => exact hi
  | Sleep => exact h0

/-- Unfolding `transition` when both `current()` lookups succeed. -/
theorem transition_eq (playlist : List Fragment) (c : ℕ) (cmd : Command)
    (loops : ℤ) (pt : ℚ) (frag frag' : Fragment)
    (h1 : playlist.get? c = some frag)
    (h2 : playlist.get? (applyCmd playlist.length cmd c) = some frag') :
    transition playlist c cmd loops pt =
      some (applyCmd playlist.length cmd c,
        (fadeStep frag loops pt).2
          ++ (introStep frag' (fadeStep frag loops pt).1).2
          ++ staticStep frag' (introStep frag' (fadeStep frag loops pt).1).1) := by
  unfold transition
  rw [h1, h2]

/-- A transition from a valid cursor on a non-empty playlist always
completes (both `current()` lookups succeed) and ends on a valid cursor. -/
theorem transition_total (playlist : List Fragment) (c : ℕ) (cmd : Command)
    (loops : ℤ) (pt : ℚ) (hc : c < playlist.length) :
    ∃ tr, transition playlist c cmd loops pt =
        some (applyCmd playlist.length cmd c, tr) ∧
      applyCmd playlist.length cmd c < playlist.length := by
  have h0 : 0 < playlist.length := Nat.pos_of_ne_zero (by omega)
  have hc' : applyCmd playlist.length cmd c < playlist.length :=
    applyCmd_valid playlist.length cmd c h0 hc
  have hfrag : playlist.get? c = some (playlist.get ⟨c, hc⟩) :=
    List.get?_eq_get hc
  have hfrag' : playlist.get? (applyCmd playlist.length cmd c) =
      some (playlist.get ⟨applyCmd playlist.length cmd c, hc'⟩) :=
    List.get?_eq_get hc'
  exact ⟨_, transition_eq playlist c cmd loops pt _ _ hfrag hfrag', hc'⟩

/-- C6: on a non-empty playlist, processing any finite command sequence
(with any telemetry at each step) from a valid cursor never panics — every
`current()` lookup succeeds — and leaves the cursor at a valid index. -/
theorem runCmds_total (playlist : List Fragment)
    (cmds : List (Command × ℤ × ℚ)) (c : ℕ) (hc : c < playlist.length) :
    ∃ c', runCmds playlist c cmds = some c' ∧ c' < playlist.length := by
  induction cmds generalizing c with
  | nil => exact ⟨c, rfl, hc⟩
  | cons x rest ih =>
    obtain ⟨cmd, loops, pt⟩ := x
    obtain ⟨tr, htrans, hvalid⟩ :=
      transition_total playlist c cmd loops pt hc
    obtain ⟨c', hrun, hv'⟩ := ih (applyCmd playlist.length cmd c) hvalid
    refine ⟨c', ?_, hv'⟩
    unfold runCmds
    rw [htrans]
    exact hrun

/-- Witness for C6: a singleton playlist with one `Next` command processed
from the start keeps the cursor valid and never panics. -/
theorem runCmds_total_witness :
    ∃ c', runCmds [⟨none, "s0", none⟩] 0 [(Command.Next, 0, 0)] = some c' ∧
      c' < ([⟨none, "s0", none⟩] : List Fragment).length :=
  runCmds_total [⟨none, "s0", none⟩] [(Command.Next, 0, 0)] 0 (by decide)

/-! ### Fragmentation independence of the decoder: claim C9 -/

/-- A found index is inside the list. -/
theorem findIdx?_lt_length {α : Type} (p : α → Bool) (l : List α) (n : ℕ)
    (h : l.findIdx? p = some n) : n < l.length := by
  obtain ⟨h1, -, -⟩ := List.findIdx?_eq_some_iff_getElem.mp h
  exact h1

/-- Consuming a line strictly shrinks the buffer. -/
theorem decode_rest_length (src : List ℕ) (n : ℕ)
    (h : src.findIdx? (fun b => b == 10) = some n) :
    (decode src).2.length < src.length := by
  rw [decode_found src n h]
  have hn : n < src.length := findIdx?_lt_length _ _ _ h
  simp only [List.length_drop]
  omega

/-- Drive `decode` to quiescence on a buffer: repeatedly consume lines while
a newline is present, collecting the commands produced, and return them with
the leftover (newline-free) buffer.  This models the framed reader calling
`decode` until no further line is available. -/
def runDecoder (src : List ℕ) : List Command × List ℕ :=
  if h : (src.findIdx? (fun b => b == 10)).isSome then
    ((decode src).1.toList ++ (runDecoder (decode src).2).1,
      (runDecoder (decode src).2).2)
  else ([], src)
termination_by src.length
decreasing_by
  obtain ⟨n, hn⟩ := Option.isSome_iff_exists.mp h
  exact decode_rest_length src n hn

/-- Unfolding `runDecoder` when the buffer holds a newline. -/
theorem runDecoder_found (src : List ℕ)
    (h : (src.findIdx? (fun b => b == 10)).isSome) :
    runDecoder src =
      ((decode src).1.toList ++ (runDecoder (decode src).2).1,
        (runDecoder (decode src).2).2) := by
  rw [runDecoder]
  rw [dif_pos h]

/-- Unfolding `runDecoder` when the buffer holds no newline. -/
theorem runDecoder_quiescent (src : List ℕ)
    (h : src.findIdx? (fun b => b == 10) = none) :
    runDecoder src = ([], src) := by
  rw [runDecoder]
  rw [dif_neg]
  simp [h]

/-- The leftover buffer of `runDecoder` holds no newline. -/
theorem runDecoder_rest_no_newline_aux :
    ∀ (k : ℕ) (src : List ℕ), src.length ≤ k →
      (runDecoder src).2.findIdx? (fun b => b == 10) = none := by
  intro k
  induction k with
  | zero =>
    intro src hlen
    have hsrc : src = [] := List.length_eq_zero.mp (Nat.le_zero.mp hlen)
    subst hsrc
    rw [runDecoder_quiescent [] rfl]
    rfl
  | succ k ih =>
    intro src hlen
    cases h : src.findIdx? (fun b => b == 10) with
    | none =>
      rw [runDecoder_quiescent src h]
      exact h
    | some n =>
      rw [runDecoder_found src (by simp [h])]
      apply ih
      have := decode_rest_length src n h
      omega

/-- The leftover buffer of `runDecoder` holds no newline. -/
theorem runDecoder_rest_no_newline (src : List ℕ) :
    (runDecoder src).2.findIdx? (fun b => b == 10) = none :=
  runDecoder_rest_no_newline_aux src.length src le_rfl

/-- Appending bytes past the first newline changes neither the decoded
command nor the bytes consumed: the appended bytes stay buffered. -/
theorem decode_append (src ext : List ℕ) (n : ℕ)
    (h : src.findIdx? (fun b => b == 10) = some n) :
    decode (src ++ ext) = ((decode src).1, (decode src).2 ++ ext) := by
  have hn : n < src.length := findIdx?_lt_length _ _ _ h
  have hfind : (src ++ ext).findIdx? (fun b => b == 10) = some n := by
    rw [List.findIdx?_append, h]
    rfl
  rw [decode_found src n h, decode_found _ n hfind]
  have htake : List.take (n + 1) (src ++ ext) = List.take (n + 1) src := by
    rw [List.take_append_eq_append_take]
    have h0 : n + 1 - src.length = 0 := by omega
    rw [h0]
    simp
  have hdrop : List.drop (n + 1) (src ++ ext) = List.drop (n + 1) src ++ ext := by
    rw [List.drop_append_eq_append_drop]
    have h0 : n + 1 - src.length = 0 := by omega
    rw [h0]
    simp
  rw [htake, hdrop]

/-- Running the decoder over `src ++ ext` first yields everything `src`
alone yields, then continues on the leftover of `src` glued to `ext`. -/
theorem runDecoder_append_aux :
    ∀ (k : ℕ) (src ext : List ℕ), src.length ≤ k →
      runDecoder (src ++ ext) =
        ((runDecoder src).1 ++ (runDecoder ((runDecoder src).2 ++ ext)).1,
          (runDecoder ((runDecoder src).2 ++ ext)).2) := by
  intro k
  induction k with
  | zero =>
    intro src ext hlen
    have hsrc : src = [] := List.length_eq_zero.mp (Nat.le_zero.mp hlen)
    subst hsrc
    rw [runDecoder_quiescent [] rfl]
    simp
  | succ k ih =>
    intro src ext hlen
    cases h : src.findIdx? (fun b => b == 10) with
    | none =>
      rw [runDecoder_quiescent src h]
      simp
    | some n =>
      have hlt := decode_rest_length src n h
      have hfind : ((src ++ ext).findIdx? (fun b => b == 10)).isSome := by
        rw [List.findIdx?_append, h]
        rfl
      rw [runDecoder_found src (by simp [h]), runDecoder_found _ hfind,
        decode_append src ext n h]
      have hih := ih (decode src).2 ext (by omega)
      rw [hih]
      simp [List.append_assoc]

/-- `runDecoder` distributes over appending more input. -/
theorem runDecoder_append (src ext : List ℕ) :
    runDecoder (src ++ ext) =
      ((runDecoder src).1 ++ (runDecoder ((runDecoder src).2 ++ ext)).1,
        (runDecoder ((runDecoder src).2 ++ ext)).2) :=
  runDecoder_append_aux src.length src ext le_rfl

/-- Feed a single byte to the decoder: append it to the retained buffer
and drive the decoder to quiescence, collecting any commands produced. -/
def feedOne (st : List Command × List ℕ) (b : ℕ) : List Command × List ℕ :=
  (st.1 ++ (runDecoder (st.2 ++ [b])).1, (runDecoder (st.2 ++ [b])).2)

/-- Feed a byte stream to the decoder one byte at a time, starting from an
empty buffer, collecting the commands produced in order. -/
def feedBytewise (src : List ℕ) : List Command × List ℕ :=
  src.foldl feedOne ([], [])

/-- Invariant form of C9: from any newline-free retained buffer `buf` and
already-produced commands `acc`, feeding `src` byte by byte produces what
running the decoder once over `buf ++ src` produces. -/
theorem feed_foldl_eq (src : List ℕ) :
    ∀ (acc : List Command) (buf : List ℕ),
      buf.findIdx? (fun b => b == 10) = none →
      src.foldl feedOne (acc, buf) =
        (acc ++ (runDecoder (buf ++ src)).1, (runDecoder (buf ++ src)).2) := by
  induction src with
  | nil =>
    intro acc buf hbuf
    rw [List.foldl_nil, List.append_nil, runDecoder_quiescent buf hbuf]
    simp
  | cons b rest ih =>
    intro acc buf hbuf
    rw [List.foldl_cons]
    have hstep : feedOne (acc, buf) b =
        (acc ++ (runDecoder (buf ++ [b])).1, (runDecoder (buf ++ [b])).2) := rfl
    rw [hstep]
    rw [ih (acc ++ (runDecoder (buf ++ [b])).1) (runDecoder (buf ++ [b])).2
      (runDecoder_rest_no_newline (buf ++ [b]))]
    have hsplit : runDecoder (buf ++ b :: rest) =
        ((runDecoder (buf ++ [b])).1 ++
            (runDecoder ((runDecoder (buf ++ [b])).2 ++ rest)).1,
          (runDecoder ((runDecoder (buf ++ [b])).2 ++ rest)).2) := by
      have h' := runDecoder_append (buf ++ [b]) rest
      rw [List.append_assoc] at h'
      simpa using h'
    rw [hsplit]
    simp [List.append_assoc]

/-- C9: feeding any finite byte stream to the decoder one byte at a time
produces exactly the command sequence (and leftover buffer) that feeding
the whole buffer at once produces — decoding is independent of how the
stream is fragmented across reads. -/
theorem decode_fragmentation_independent (src : List ℕ) :
    feedBytewise src = runDecoder src := by
  unfold feedBytewise
  rw [feed_foldl_eq src [] [] rfl]
  simp

end Cavempv
